import Mathlib

/-!
Verification of the Day 7 / Day 14 review-project data structures of the
c-- study repository: the `SmartVector` growable array, the `COWString`
copy-on-write string and the `SimpleMemoryManager` pool allocator.

The repository ships only the public contracts (class declarations with
TODO bodies) together with their test suites, so each component below is
modelled from the written specification: pure Lean functions stand for the
member functions, and heaps of numbered buffers stand for the C++ free
store where buffer identity (`data_ptr`) is observable.
-/

namespace CppMastery

/-! ## SmartVector: growable array with manual capacity management -/

/-- Modelled from the spec: the `SmartVector` growable array of
`day14_week2_review_project.cpp` (its member bodies are TODO stubs in the
repository).  The backing buffer `data_` always has length `capacity_`;
slots with index in `[size_, capacity_)` are allocated but not live and
hold the default element. -/
structure SmartVector (α : Type) where
  data_ : List α
  size_ : Nat
  capacity_ : Nat
  deriving Repr, DecidableEq

/-- Modelled from the spec: construction of an empty vector with a given
initial capacity (the default constructor corresponds to capacity 0). -/
def SmartVector.mk0 (α : Type) [Inhabited α] (c : Nat) : SmartVector α :=
  ⟨List.replicate c default, 0, c⟩

/-- Modelled from the spec: `push_back` appends a value; when
`size == capacity` it first grows to a fresh buffer of capacity
`max 1 (capacity * 2)` (growth factor 2), copying the `size` live
elements, then constructs the new element at index `size`. -/
def SmartVector.push_back [Inhabited α] (v : SmartVector α) (x : α) :
    SmartVector α :=
  if v.size_ = v.capacity_ then
    ⟨(v.data_.take v.size_ ++
        List.replicate (max 1 (v.capacity_ * 2) - v.size_) default).set
          v.size_ x,
      v.size_ + 1, max 1 (v.capacity_ * 2)⟩
  else
    ⟨v.data_.set v.size_ x, v.size_ + 1, v.capacity_⟩

/-- Modelled from the spec: `pop_back` removes the last element when
`size > 0` and is a no-op on an empty vector (the spec's first-listed
choice for popping an empty container).  Capacity never shrinks. -/
def SmartVector.pop_back (v : SmartVector α) : SmartVector α :=
  if v.size_ = 0 then v else { v with size_ := v.size_ - 1 }

/-- Modelled from the spec: unchecked element access `operator[]`. -/
def SmartVector.get [Inhabited α] (v : SmartVector α) (i : Nat) : α :=
  v.data_.getD i default

/-- Modelled from the spec: `size()` accessor. -/
def SmartVector.size (v : SmartVector α) : Nat := v.size_

/-- Modelled from the spec: `capacity()` accessor. -/
def SmartVector.capacity (v : SmartVector α) : Nat := v.capacity_

/-- A single client operation on a growable array. -/
inductive VecOp (α : Type) where
  | push (x : α)
  | pop
  deriving Repr, DecidableEq

/-- Run one operation on a `SmartVector`. -/
def SmartVector.step [Inhabited α] (v : SmartVector α) : VecOp α → SmartVector α
  | .push x => v.push_back x
  | .pop => v.pop_back

/-- Run a whole sequence of operations on a `SmartVector`. -/
def SmartVector.replay [Inhabited α] (v : SmartVector α)
    (ops : List (VecOp α)) : SmartVector α :=
  ops.foldl SmartVector.step v

/-- Abstract contents semantics following the spec's words: starting from
contents `l`, a push appends its value and a pop drops the last element.
The result is the list of pushed values still present, in push order. -/
def listModel : List (VecOp α) → List α → List α
  | [], l => l
  | .push x :: ops, l => listModel ops (l ++ [x])
  | .pop :: ops, l => listModel ops l.dropLast

/-- Number of pushes in an operation sequence. -/
def countPush : List (VecOp α) → Nat
  | [] => 0
  | .push _ :: ops => countPush ops + 1
  | .pop :: ops => countPush ops

/-- Number of pops in an operation sequence. -/
def countPop : List (VecOp α) → Nat
  | [] => 0
  | .push _ :: ops => countPop ops
  | .pop :: ops => countPop ops + 1

/-- Holds when, starting from abstract contents `l`, no pop of the
operation sequence is executed while the contents are empty. -/
def noPopOnEmpty : List (VecOp α) → List α → Bool
  | [], _ => true
  | .push x :: ops, l => noPopOnEmpty ops (l ++ [x])
  | .pop :: ops, l => !l.isEmpty && noPopOnEmpty ops l.dropLast

/-- Structural invariant of a `SmartVector`: the live count is bounded by
the capacity and the buffer has exactly `capacity_` slots. -/
def SmartVector.WF (v : SmartVector α) : Prop :=
  v.size_ ≤ v.capacity_ ∧ v.data_.length = v.capacity_

/-- The live contents of a `SmartVector`. -/
def SmartVector.abs (v : SmartVector α) : List α := v.data_.take v.size_

/-! ## Association lists of numbered buffers (a little free-store model) -/

/-- Look up the value bound to key `i` in an association list. -/
def alistLookup {β : Type} : List (Nat × β) → Nat → Option β
  | [], _ => none
  | (k, d) :: rest, i => if k = i then some d else alistLookup rest i

/-- Replace the value bound to key `i` (first binding) by `f` of it. -/
def alistUpdate {β : Type} (f : β → β) : List (Nat × β) → Nat → List (Nat × β)
  | [], _ => []
  | (k, d) :: rest, i =>
    if k = i then (k, f d) :: rest else (k, d) :: alistUpdate f rest i

/-! ## COWString: reference-counted copy-on-write string -/

/-- Modelled from the spec: the shared buffer behind a `COWString` handle,
holding the character data and the reference count. -/
structure StringData where
  chars : List Char
  ref_count : Nat
  deriving Repr, DecidableEq

/-- Heap of `COWString` buffers.  A handle is the number of the buffer it
references; `data_ptr()` is that number, so two handles alias exactly when
they are equal.  `next` is the next fresh buffer number. -/
structure COWHeap where
  bufs : List (Nat × StringData)
  next : Nat
  deriving Repr, DecidableEq

/-- The empty heap: no buffers allocated yet. -/
def COWHeap.empty : COWHeap := ⟨[], 0⟩

/-- Increment the reference count of buffer `i`. -/
def incRefList (l : List (Nat × StringData)) (i : Nat) :
    List (Nat × StringData) :=
  alistUpdate (fun d => ⟨d.chars, d.ref_count + 1⟩) l i

/-- Decrement the reference count of buffer `i`, removing the buffer when
the count reaches zero (the buffer is freed). -/
def decRefList : List (Nat × StringData) → Nat → List (Nat × StringData)
  | [], _ => []
  | (k, d) :: rest, i =>
    if k = i then
      if d.ref_count ≤ 1 then rest
      else (k, ⟨d.chars, d.ref_count - 1⟩) :: rest
    else (k, d) :: decRefList rest i

/-- Look up buffer `i` in the heap. -/
def COWHeap.lookup (h : COWHeap) (i : Nat) : Option StringData :=
  alistLookup h.bufs i

/-- Modelled from the spec: construction from a C string (`COWString`'s
bodies are TODO stubs in `day07_week1_review_project.cpp`).  A fresh
buffer with `ref_count = 1` is allocated; a null input (`none`) yields the
canonical empty string. -/
def COWHeap.fromCString (h : COWHeap) (s : Option (List Char)) :
    Nat × COWHeap :=
  (h.next, ⟨h.bufs ++ [(h.next, ⟨s.getD [], 1⟩)], h.next + 1⟩)

/-- Modelled from the spec: copy construction shares the source's buffer
and increments its reference count; no character bytes are copied. -/
def COWHeap.copyCtor (h : COWHeap) (src : Nat) : Nat × COWHeap :=
  (src, ⟨incRefList h.bufs src, h.next⟩)

/-- Modelled from the spec: copy assignment.  Self-assignment (same
buffer) is a no-op; otherwise the destination handle releases its old
buffer and shares the source's buffer, incrementing its count. -/
def COWHeap.assign (h : COWHeap) (dst src : Nat) : Nat × COWHeap :=
  if dst = src then (dst, h)
  else (src, ⟨incRefList (decRefList h.bufs dst) src, h.next⟩)

/-- Modelled from the spec: the `ref_count()` debug accessor of the buffer
referenced by handle `i` (0 for a dangling handle, which never arises). -/
def COWHeap.ref_count (h : COWHeap) (i : Nat) : Nat :=
  ((h.lookup i).map StringData.ref_count).getD 0

/-- Modelled from the spec: the `c_str()` read accessor (never detaches). -/
def COWHeap.cStr (h : COWHeap) (i : Nat) : List Char :=
  ((h.lookup i).map StringData.chars).getD []

/-- Modelled from the spec: the `length()` accessor. -/
def COWHeap.strLength (h : COWHeap) (i : Nat) : Nat := (h.cStr i).length

/-- Replace the characters of buffer `i`, keeping its reference count. -/
def setCharsList (l : List (Nat × StringData)) (i : Nat) (cs : List Char) :
    List (Nat × StringData) :=
  alistUpdate (fun d => ⟨cs, d.ref_count⟩) l i

/-- Modelled from the spec: a mutating access `s[i] = c` through the
non-const `operator[]`.  It first detaches: when the buffer is shared
(`ref_count > 1`) the handle moves to a fresh private copy and the old
buffer's count is decremented; with `ref_count = 1` it mutates in place.
The returned number is the handle after the access. -/
def COWHeap.mutateAt (h : COWHeap) (hd : Nat) (i : Nat) (c : Char) :
    Nat × COWHeap :=
  match h.lookup hd with
  | none => (hd, h)
  | some d =>
    if d.ref_count ≤ 1 then
      (hd, ⟨setCharsList h.bufs hd (d.chars.set i c), h.next⟩)
    else
      (h.next, ⟨decRefList h.bufs hd ++ [(h.next, ⟨d.chars.set i c, 1⟩)],
        h.next + 1⟩)

/-- Modelled from the spec: concatenation `a + b` always allocates a fresh
buffer holding the byte-wise concatenation, with `ref_count = 1`. -/
def COWHeap.concat (h : COWHeap) (a b : Nat) : Nat × COWHeap :=
  (h.next, ⟨h.bufs ++ [(h.next, ⟨h.cStr a ++ h.cStr b, 1⟩)], h.next + 1⟩)

/-- Modelled from the spec: value-based equality `a == b`. -/
def COWHeap.strEq (h : COWHeap) (a b : Nat) : Bool := h.cStr a == h.cStr b

/-- Modelled from the spec: handle destruction decrements the buffer's
reference count, freeing the buffer at zero. -/
def COWHeap.destroy (h : COWHeap) (hd : Nat) : COWHeap :=
  ⟨decRefList h.bufs hd, h.next⟩

/-- Well-formedness of a heap: every allocated buffer number is below the
fresh counter. -/
def COWHeap.wf (h : COWHeap) : Prop := ∀ kv ∈ h.bufs, kv.1 < h.next

/-! ## SimpleMemoryManager: fixed-arena pool allocator with a free list -/

/-- One segment of the arena: its byte offset, its length in bytes, and
whether it is currently free.  The free list of the spec is the sublist of
free segments, each a `(offset, length)` pair. -/
structure Seg where
  off : Nat
  len : Nat
  free : Bool
  deriving Repr, DecidableEq

/-- Modelled from the spec: the `SimpleMemoryManager` pool allocator of
`day07_week1_review_project.cpp` (its member bodies are TODO stubs in the
repository).  `segs` lists the segments of the arena in address order;
pointers are byte offsets from the arena base, so the null pointer is
`none` and offset 0 is a valid non-null pointer. -/
structure SimpleMemoryManager where
  pool_size : Nat
  segs : List Seg
  allocated_bytes : Nat
  allocation_count : Nat
  deallocation_count : Nat
  deriving Repr, DecidableEq

/-- Modelled from the spec: construction with a fixed arena of
`pool_size` bytes, initially one free block spanning the whole arena. -/
def SimpleMemoryManager.init (P : Nat) : SimpleMemoryManager :=
  ⟨P, if P = 0 then [] else [⟨0, P, true⟩], 0, 0, 0⟩

/-- Round a request size up to a multiple of `sizeof(void*) = 8`, the
alignment the shipped test contract demands of returned pointers. -/
def alignUp8 (n : Nat) : Nat := (n + 7) / 8 * 8

/-- First-fit search: find the first free segment of length at least
`asize`, mark its front `asize` bytes allocated and keep the remainder
(if any) free.  Returns the new segment list and the chosen offset. -/
def firstFitSplit (asize : Nat) : List Seg → Option (List Seg × Nat)
  | [] => none
  | s :: rest =>
    if s.free ∧ asize ≤ s.len then
      some (⟨s.off, asize, false⟩ ::
        (if asize < s.len then ⟨s.off + asize, s.len - asize, true⟩ :: rest
         else rest), s.off)
    else
      match firstFitSplit asize rest with
      | none => none
      | some (rest', p) => some (s :: rest', p)

/-- Modelled from the spec: `allocate(size)` serves a request from the
first free block that fits (first-fit, splitting larger blocks), with the
size rounded up so every returned pointer is `sizeof(void*)`-aligned.  It
returns `none` (a null pointer) on a zero-size request or when no free
block is large enough, leaving the manager unchanged. -/
def SimpleMemoryManager.allocate (m : SimpleMemoryManager) (size : Nat) :
    Option Nat × SimpleMemoryManager :=
  if size = 0 then (none, m) else
    match firstFitSplit (alignUp8 size) m.segs with
    | none => (none, m)
    | some (segs', p) =>
      (some p, { m with
        segs := segs',
        allocated_bytes := m.allocated_bytes + alignUp8 size,
        allocation_count := m.allocation_count + 1 })

/-- Mark the allocated segment at offset `p` free, returning the new
segment list and the segment's length; `none` when no allocated segment
starts at `p`. -/
def markFree (p : Nat) : List Seg → Option (List Seg × Nat)
  | [] => none
  | s :: rest =>
    if s.off = p ∧ s.free = false then
      some (⟨s.off, s.len, true⟩ :: rest, s.len)
    else
      match markFree p rest with
      | none => none
      | some (rest', n) => some (s :: rest', n)

/-- Coalesce adjacent free segments of an address-ordered segment list. -/
def coalesce : List Seg → List Seg
  | [] => []
  | s :: rest =>
    match coalesce rest with
    | [] => [s]
    | t :: ts =>
      if s.free = true ∧ t.free = true ∧ s.off + s.len = t.off then
        ⟨s.off, s.len + t.len, true⟩ :: ts
      else
        s :: t :: ts

/-- Modelled from the spec: `deallocate(ptr)` returns the block at `ptr`
to the free list and coalesces it with adjacent free blocks.
Deallocating the null pointer (`none`) is a no-op that touches neither
the free list nor any counter; so is an offset that is not the start of
an outstanding allocation. -/
def SimpleMemoryManager.deallocate (m : SimpleMemoryManager)
    (p : Option Nat) : SimpleMemoryManager :=
  match p with
  | none => m
  | some off =>
    match markFree off m.segs with
    | none => m
    | some (segs', n) =>
      { m with
        segs := coalesce segs',
        allocated_bytes := m.allocated_bytes - n,
        deallocation_count := m.deallocation_count + 1 }

/-- Modelled from the spec: `get_free_block_count()`. -/
def SimpleMemoryManager.get_free_block_count (m : SimpleMemoryManager) : Nat :=
  (m.segs.filter (fun s => s.free)).length

/-- Modelled from the spec: `get_largest_free_block()`. -/
def SimpleMemoryManager.get_largest_free_block (m : SimpleMemoryManager) : Nat :=
  (m.segs.filter (fun s => s.free)).foldr (fun s acc => max s.len acc) 0

/-- Modelled from the spec: `get_allocated_bytes()`. -/
def SimpleMemoryManager.get_allocated_bytes (m : SimpleMemoryManager) : Nat :=
  m.allocated_bytes

/-- Modelled from the spec: `get_allocation_count()`. -/
def SimpleMemoryManager.get_allocation_count (m : SimpleMemoryManager) : Nat :=
  m.allocation_count

/-- Modelled from the spec: `get_deallocation_count()`. -/
def SimpleMemoryManager.get_deallocation_count (m : SimpleMemoryManager) : Nat :=
  m.deallocation_count

/-- One client call on the memory manager. -/
inductive MMOp where
  | alloc (size : Nat)
  | dealloc (p : Option Nat)
  deriving Repr, DecidableEq

/-- Run one call (the pointer result of an allocation is discarded here;
clients name offsets directly in `dealloc`). -/
def SimpleMemoryManager.step (m : SimpleMemoryManager) :
    MMOp → SimpleMemoryManager
  | .alloc s => (m.allocate s).2
  | .dealloc p => m.deallocate p

/-- Run a call sequence against a freshly constructed pool of `P` bytes. -/
def SimpleMemoryManager.replay (P : Nat) (ops : List MMOp) :
    SimpleMemoryManager :=
  ops.foldl SimpleMemoryManager.step (SimpleMemoryManager.init P)

/-- The segment list tiles the half-open byte range `[lo, hi)`: segments
sit at consecutive offsets, have positive length, and end exactly at
`hi`. -/
def isTiling : List Seg → Nat → Nat → Prop
  | [], lo, hi => lo = hi
  | s :: rest, lo, hi => s.off = lo ∧ 0 < s.len ∧ isTiling rest (lo + s.len) hi

/-- No two address-adjacent segments are both free (the free list is
fully coalesced). -/
def noAdjFree : List Seg → Prop
  | [] => True
  | [_] => True
  | s :: t :: rest => ¬(s.free = true ∧ t.free = true) ∧ noAdjFree (t :: rest)

/-- Every segment offset is a multiple of the pointer alignment. -/
def offsAligned (l : List Seg) : Prop := ∀ s ∈ l, s.off % 8 = 0

/-- The arena invariant: the segments tile the arena, the free list is
coalesced, and every segment starts at an aligned offset. -/
def SimpleMemoryManager.Inv (m : SimpleMemoryManager) : Prop :=
  isTiling m.segs 0 m.pool_size ∧ noAdjFree m.segs ∧ offsAligned m.segs

/-! ## VecHeap: buffer identity for SmartVector copies -/

/-- Modelled from the spec: a free store of `SmartVector<int>` element
buffers, making buffer identity observable so that deep copying is a
statable property.  A vector owns exactly one numbered buffer holding its
live elements; `next` is the next fresh buffer number. -/
structure VecHeap where
  bufs : List (Nat × List Int)
  next : Nat
  deriving Repr, DecidableEq

/-- Allocate a fresh buffer holding `xs`. -/
def VecHeap.alloc (H : VecHeap) (xs : List Int) : Nat × VecHeap :=
  (H.next, ⟨H.bufs ++ [(H.next, xs)], H.next + 1⟩)

/-- Look up the contents of buffer `i`. -/
def VecHeap.lookup (H : VecHeap) (i : Nat) : Option (List Int) :=
  alistLookup H.bufs i

/-- Modelled from the spec: copy construction (and copy assignment) of a
vector deep-copies the live elements into a freshly allocated buffer,
never sharing the source's buffer. -/
def VecHeap.copyCtor (H : VecHeap) (src : Nat) : Nat × VecHeap :=
  H.alloc ((H.lookup src).getD [])

/-- Modelled from the spec: the mutating `v[i] = x` writes through the
vector's own buffer. -/
def VecHeap.setIdx (H : VecHeap) (v : Nat) (i : Nat) (x : Int) : VecHeap :=
  ⟨alistUpdate (fun xs => xs.set i x) H.bufs v, H.next⟩

/-- Modelled from the spec: reading `v[i]`. -/
def VecHeap.read (H : VecHeap) (v : Nat) (i : Nat) : Int :=
  ((H.lookup v).getD []).getD i 0

/-- Well-formedness: every allocated buffer number is below the fresh
counter. -/
def VecHeap.wf (H : VecHeap) : Prop := ∀ kv ∈ H.bufs, kv.1 < H.next

/-! ## List helper lemmas -/

theorem list_take_set_succ {α : Type} (l : List α) (i : Nat) (a : α)
    (h : i < l.length) : (l.set i a).take (i + 1) = l.take i ++ [a] := by
  induction l generalizing i with
  | nil => simp at h
  | cons x xs ih =>
    cases i with
    | zero => simp
    | succ j =>
      simp only [List.set_cons_succ, List.take_succ_cons, List.cons_append]
      exact congrArg (x :: ·) (ih j (by simpa using h))

theorem list_getD_take {α : Type} (l : List α) (n i : Nat) (d : α)
    (h : i < n) : (l.take n).getD i d = l.getD i d := by
  induction l generalizing n i with
  | nil => simp
  | cons x xs ih =>
    cases n with
    | zero => omega
    | succ m =>
      cases i with
      | zero => simp
      | succ j =>
        simp only [List.take_succ_cons, List.getD_cons_succ]
        exact ih m j (by omega)

theorem list_dropLast_take {α : Type} (l : List α) (n : Nat)
    (h : n ≤ l.length) : (l.take n).dropLast = l.take (n - 1) := by
  rw [List.dropLast_eq_take, List.take_take, List.length_take]
  congr 1
  omega

/-! ## SmartVector refinement to the abstract contents semantics -/

theorem smartVector_wf_mk0 (α : Type) [Inhabited α] (c : Nat) :
    (SmartVector.mk0 α c).WF := by
  constructor
  · exact Nat.zero_le _
  · simp [SmartVector.mk0]

theorem smartVector_abs_mk0 (α : Type) [Inhabited α] (c : Nat) :
    (SmartVector.mk0 α c).abs = [] := by
  simp [SmartVector.mk0, SmartVector.abs]

theorem smartVector_abs_push {α : Type} [Inhabited α] (v : SmartVector α)
    (x : α) (h : v.WF) :
    (v.push_back x).abs = v.abs ++ [x] ∧ (v.push_back x).WF := by
  obtain ⟨hsc, hlen⟩ := h
  rw [SmartVector.push_back]
  by_cases he : v.size_ = v.capacity_
  · rw [if_pos he]
    have hlt : v.size_ < max 1 (v.capacity_ * 2) := by omega
    have htk : (v.data_.take v.size_).length = v.size_ := by
      rw [List.length_take]; omega
    refine ⟨?_, ?_, ?_⟩
    · show ((v.data_.take v.size_ ++
          List.replicate (max 1 (v.capacity_ * 2) - v.size_) default).set
            v.size_ x).take (v.size_ + 1) = v.data_.take v.size_ ++ [x]
      rw [list_take_set_succ _ _ _
          (by rw [List.length_append, htk, List.length_replicate]; omega),
        List.take_append_of_le_length (by omega), List.take_take,
        Nat.min_self]
    · show v.size_ + 1 ≤ max 1 (v.capacity_ * 2)
      omega
    · show ((v.data_.take v.size_ ++
          List.replicate (max 1 (v.capacity_ * 2) - v.size_) default).set
            v.size_ x).length = max 1 (v.capacity_ * 2)
      rw [List.length_set, List.length_append, htk, List.length_replicate]
      omega
  · rw [if_neg he]
    have hlt : v.size_ < v.data_.length := by omega
    refine ⟨?_, ?_, ?_⟩
    · show (v.data_.set v.size_ x).take (v.size_ + 1)
        = v.data_.take v.size_ ++ [x]
      exact list_take_set_succ _ _ _ hlt
    · show v.size_ + 1 ≤ v.capacity_
      omega
    · show (v.data_.set v.size_ x).length = v.capacity_
      rw [List.length_set]
      omega

theorem smartVector_abs_pop {α : Type} (v : SmartVector α) (h : v.WF) :
    v.pop_back.abs = v.abs.dropLast ∧ v.pop_back.WF := by
  obtain ⟨hsc, hlen⟩ := h
  rw [SmartVector.pop_back]
  by_cases he : v.size_ = 0
  · rw [if_pos he]
    refine ⟨?_, hsc, hlen⟩
    show v.data_.take v.size_ = (v.data_.take v.size_).dropLast
    rw [he]
    simp
  · rw [if_neg he]
    refine ⟨?_, by show v.size_ - 1 ≤ v.capacity_; omega, hlen⟩
    show v.data_.take (v.size_ - 1) = (v.data_.take v.size_).dropLast
    rw [list_dropLast_take _ _ (by omega)]

theorem smartVector_replay_abs {α : Type} [Inhabited α]
    (ops : List (VecOp α)) (v : SmartVector α) (h : v.WF) :
    (v.replay ops).WF ∧ (v.replay ops).abs = listModel ops v.abs := by
  induction ops generalizing v with
  | nil => exact ⟨h, rfl⟩
  | cons op ops ih =>
    cases op with
    | push x =>
      have hp := smartVector_abs_push v x h
      have hr := ih (v.push_back x) hp.2
      refine ⟨hr.1, ?_⟩
      show (SmartVector.replay (v.push_back x) ops).abs
        = listModel ops (v.abs ++ [x])
      rw [hr.2, hp.1]
    | pop =>
      have hp := smartVector_abs_pop v h
      have hr := ih v.pop_back hp.2
      refine ⟨hr.1, ?_⟩
      show (SmartVector.replay v.pop_back ops).abs
        = listModel ops v.abs.dropLast
      rw [hr.2, hp.1]

theorem smartVector_size_abs {α : Type} (v : SmartVector α) (h : v.WF) :
    v.abs.length = v.size := by
  obtain ⟨hsc, hlen⟩ := h
  rw [SmartVector.abs, List.length_take]
  show min v.size_ v.data_.length = v.size_
  omega

theorem smartVector_get_abs {α : Type} [Inhabited α] (v : SmartVector α)
    (i : Nat) (hi : i < v.size_) :
    v.get i = v.abs.getD i default := by
  rw [SmartVector.get, SmartVector.abs, list_getD_take _ _ _ _ hi]

theorem listModel_length_of_noPop {α : Type} (ops : List (VecOp α))
    (l : List α) (h : noPopOnEmpty ops l = true) :
    (listModel ops l).length + countPop ops = l.length + countPush ops := by
  induction ops generalizing l with
  | nil => simp [listModel, countPush, countPop]
  | cons op ops ih =>
    cases op with
    | push x =>
      have hh : noPopOnEmpty ops (l ++ [x]) = true := h
      have := ih (l ++ [x]) hh
      simp only [listModel, countPush, countPop, List.length_append,
        List.length_singleton] at this ⊢
      omega
    | pop =>
      have hh := h
      rw [noPopOnEmpty] at hh
      rw [Bool.and_eq_true, Bool.not_eq_true'] at hh
      obtain ⟨h1, h2⟩ := hh
      have hl : l ≠ [] := by
        intro hc
        rw [hc] at h1
        simp at h1
      have hlen : 0 < l.length := List.length_pos.mpr hl
      have := ih l.dropLast h2
      simp only [listModel, countPush, countPop, List.length_dropLast] at this ⊢
      omega

/-- C2 counterexample: starting from an empty array, the sequence
[pop, push 42] leaves one element, but the number of pushes minus the
number of pops is zero, so the claim's size equation fails on sequences
that pop an empty array (pop on empty is a no-op per the spec). -/
theorem smartVector_pop_empty_size_mismatch :
    (SmartVector.replay (SmartVector.mk0 Nat 1)
        [VecOp.pop, VecOp.push 42]).size
      ≠ countPush [VecOp.pop, VecOp.push (42 : Nat)]
          - countPop [VecOp.pop, VecOp.push (42 : Nat)] := by
  decide

/-- C2 (amended): for every sequence of push and pop operations starting
from an empty array in which no pop is executed on an empty array,
`size()` equals the number of pushes minus the number of pops (stated
additively), and for every valid index `i`, `a[i]` equals the i-th pushed
value still present (the abstract contents `listModel ops []`). -/
theorem smartVector_push_pop_spec (α : Type) [Inhabited α] (c : Nat)
    (ops : List (VecOp α)) (hbal : noPopOnEmpty ops ([] : List α) = true) :
    (SmartVector.replay (SmartVector.mk0 α c) ops).size + countPop ops
        = countPush ops
    ∧ ∀ i, i < (SmartVector.replay (SmartVector.mk0 α c) ops).size →
        (SmartVector.replay (SmartVector.mk0 α c) ops).get i
          = (listModel ops []).getD i default := by
  have hwf := smartVector_wf_mk0 α c
  have hr := smartVector_replay_abs ops (SmartVector.mk0 α c) hwf
  have habs : (SmartVector.replay (SmartVector.mk0 α c) ops).abs
      = listModel ops [] := by
    rw [hr.2, smartVector_abs_mk0]
  have hsz : (SmartVector.replay (SmartVector.mk0 α c) ops).size
      = (listModel ops []).length := by
    rw [← habs, smartVector_size_abs _ hr.1]
  constructor
  · have := listModel_length_of_noPop ops [] hbal
    simp only [List.length_nil] at this
    omega
  · intro i hi
    rw [smartVector_get_abs _ _ hi, habs]

/-- Closed witness for the amended C2 on a concrete run. -/
theorem smartVector_push_pop_spec_witness :
    (SmartVector.replay (SmartVector.mk0 Nat 0)
        [VecOp.push 1, VecOp.push 2, VecOp.pop]).size
        + countPop [VecOp.push (1 : Nat), VecOp.push 2, VecOp.pop]
      = countPush [VecOp.push (1 : Nat), VecOp.push 2, VecOp.pop]
    ∧ (SmartVector.replay (SmartVector.mk0 Nat 0)
        [VecOp.push 1, VecOp.push 2, VecOp.pop]).get 0
      = (listModel [VecOp.push (1 : Nat), VecOp.push 2, VecOp.pop] []).getD 0
          default := by
  have h := smartVector_push_pop_spec Nat 0
      [VecOp.push 1, VecOp.push 2, VecOp.pop] (by decide)
  exact ⟨h.1, h.2 0 (by decide)⟩

set_option maxRecDepth 100000 in
/-- C6: pushing 0..99 into an empty array with growth factor 2 and
starting capacity 1 yields size 100, a final capacity of 128 (a power of
two at least 100), and element 50 equal to 50. -/
theorem smartVector_growth_scenario :
    (SmartVector.replay (SmartVector.mk0 Nat 1)
        ((List.range 100).map VecOp.push)).size = 100
    ∧ (SmartVector.replay (SmartVector.mk0 Nat 1)
        ((List.range 100).map VecOp.push)).capacity = 128
    ∧ (SmartVector.replay (SmartVector.mk0 Nat 1)
        ((List.range 100).map VecOp.push)).capacity = 2 ^ 7
    ∧ 100 ≤ (SmartVector.replay (SmartVector.mk0 Nat 1)
        ((List.range 100).map VecOp.push)).capacity
    ∧ (SmartVector.replay (SmartVector.mk0 Nat 1)
        ((List.range 100).map VecOp.push)).get 50 = 50 := by
  decide

/-! ## Association list lemmas -/

theorem alistLookup_update_eq {β : Type} (f : β → β) (l : List (Nat × β))
    (i : Nat) :
    alistLookup (alistUpdate f l i) i = (alistLookup l i).map f := by
  induction l with
  | nil => rfl
  | cons kv rest ih =>
    obtain ⟨k, d⟩ := kv
    by_cases hk : k = i
    · simp [alistUpdate, alistLookup, hk]
    · simp [alistUpdate, alistLookup, hk, ih]

theorem alistLookup_update_ne {β : Type} (f : β → β) (l : List (Nat × β))
    (i j : Nat) (hij : j ≠ i) :
    alistLookup (alistUpdate f l i) j = alistLookup l j := by
  induction l with
  | nil => rfl
  | cons kv rest ih =>
    obtain ⟨k, d⟩ := kv
    by_cases hk : k = i
    · subst hk
      have hkj : ¬k = j := fun hc => hij (hc ▸ rfl)
      simp [alistUpdate, alistLookup, hkj]
    · by_cases hkj : k = j
      · simp [alistUpdate, alistLookup, hk, hkj, hij]
      · simp [alistUpdate, alistLookup, hk, hkj, ih]

theorem alistLookup_append_left {β : Type} (l₁ l₂ : List (Nat × β))
    (i : Nat) (d : β) (h : alistLookup l₁ i = some d) :
    alistLookup (l₁ ++ l₂) i = some d := by
  induction l₁ with
  | nil => simp [alistLookup] at h
  | cons kv rest ih =>
    obtain ⟨k, b⟩ := kv
    by_cases hk : k = i
    · simp only [alistLookup, hk, if_pos] at h ⊢
      simp_all [alistLookup]
    · simp only [List.cons_append, alistLookup, if_neg hk] at h ⊢
      exact ih h

theorem alistLookup_append_fresh {β : Type} (l : List (Nat × β)) (n : Nat)
    (d : β) (h : ∀ kv ∈ l, kv.1 ≠ n) :
    alistLookup (l ++ [(n, d)]) n = some d := by
  induction l with
  | nil => simp [alistLookup]
  | cons kv rest ih =>
    obtain ⟨k, b⟩ := kv
    have hk : k ≠ n := h (k, b) (List.mem_cons_self _ _)
    simp only [List.cons_append, alistLookup, if_neg hk]
    exact ih (fun kv hkv => h kv (List.mem_cons_of_mem _ hkv))

theorem alistLookup_mem {β : Type} (l : List (Nat × β)) (i : Nat) (d : β)
    (h : alistLookup l i = some d) : (i, d) ∈ l := by
  induction l with
  | nil => simp [alistLookup] at h
  | cons kv rest ih =>
    obtain ⟨k, b⟩ := kv
    by_cases hk : k = i
    · subst hk
      simp [alistLookup] at h
      subst h
      exact List.mem_cons_self _ _
    · simp only [alistLookup, if_neg hk] at h
      exact List.mem_cons_of_mem _ (ih h)

theorem alistUpdate_key_mem {β : Type} (f : β → β) (l : List (Nat × β))
    (i : Nat) (kv : Nat × β) (h : kv ∈ alistUpdate f l i) :
    ∃ d, (kv.1, d) ∈ l := by
  induction l with
  | nil => simp [alistUpdate] at h
  | cons kv0 rest ih =>
    obtain ⟨k, b⟩ := kv0
    by_cases hk : k = i
    · simp only [alistUpdate, if_pos hk] at h
      rcases List.mem_cons.mp h with h1 | h2
      · exact ⟨b, by rw [h1]; exact List.mem_cons_self _ _⟩
      · exact ⟨kv.2, List.mem_cons_of_mem _ (by simpa using h2)⟩
    · simp only [alistUpdate, if_neg hk] at h
      rcases List.mem_cons.mp h with h1 | h2
      · exact ⟨b, by rw [h1]; exact List.mem_cons_self _ _⟩
      · obtain ⟨d, hd⟩ := ih h2
        exact ⟨d, List.mem_cons_of_mem _ hd⟩

/-! ## decRefList lemmas -/

theorem decRefList_lookup_ne (l : List (Nat × StringData)) (i j : Nat)
    (hij : j ≠ i) :
    alistLookup (decRefList l i) j = alistLookup l j := by
  induction l with
  | nil => rfl
  | cons kv rest ih =>
    obtain ⟨k, d⟩ := kv
    by_cases hk : k = i
    · subst hk
      have hkj : ¬k = j := fun hc => hij (hc ▸ rfl)
      by_cases hrc : d.ref_count ≤ 1
      · simp [decRefList, hrc, alistLookup, hkj]
      · simp [decRefList, hrc, alistLookup, hkj]
    · by_cases hkj : k = j
      · simp [decRefList, hk, alistLookup, hkj, hij]
      · simp [decRefList, hk, alistLookup, hkj, ih]

theorem decRefList_lookup_shared (l : List (Nat × StringData)) (i : Nat)
    (d : StringData) (h : alistLookup l i = some d)
    (hrc : 2 ≤ d.ref_count) :
    alistLookup (decRefList l i) i = some ⟨d.chars, d.ref_count - 1⟩ := by
  induction l with
  | nil => simp [alistLookup] at h
  | cons kv rest ih =>
    obtain ⟨k, b⟩ := kv
    by_cases hk : k = i
    · subst hk
      simp [alistLookup] at h
      subst h
      have hb : ¬b.ref_count ≤ 1 := by omega
      simp [decRefList, hb, alistLookup]
    · simp only [alistLookup, if_neg hk] at h
      simp [decRefList, hk, alistLookup, ih h]

theorem decRefList_key_mem (l : List (Nat × StringData)) (i : Nat)
    (kv : Nat × StringData) (h : kv ∈ decRefList l i) :
    ∃ d, (kv.1, d) ∈ l := by
  induction l with
  | nil => simp [decRefList] at h
  | cons kv0 rest ih =>
    obtain ⟨k, b⟩ := kv0
    by_cases hk : k = i
    · by_cases hrc : b.ref_count ≤ 1
      · simp only [decRefList, if_pos hk, if_pos hrc] at h
        exact ⟨kv.2, List.mem_cons_of_mem _ (by simpa using h)⟩
      · simp only [decRefList, if_pos hk, if_neg hrc] at h
        rcases List.mem_cons.mp h with h1 | h2
        · exact ⟨b, by rw [h1]; exact List.mem_cons_self _ _⟩
        · exact ⟨kv.2, List.mem_cons_of_mem _ (by simpa using h2)⟩
    · simp only [decRefList, if_neg hk] at h
      rcases List.mem_cons.mp h with h1 | h2
      · exact ⟨b, by rw [h1]; exact List.mem_cons_self _ _⟩
      · obtain ⟨d, hd⟩ := ih h2
        exact ⟨d, List.mem_cons_of_mem _ hd⟩

/-! ## COWString theorems -/

/-- C1 counterexample: two handles share one buffer with ref count 2;
after a mutating access through one handle, the untouched sibling still
points at buffer 0 but now observes ref count 1, not the prior 2 — so
the sibling's ref count is not unchanged by the mutation. -/
theorem cowString_sibling_refcount_changes :
    ((COWHeap.empty.fromCString
        (some ['H', 'e', 'l', 'l', 'o'])).2.copyCtor 0).2.ref_count 0 = 2
    ∧ (((COWHeap.empty.fromCString
        (some ['H', 'e', 'l', 'l', 'o'])).2.copyCtor 0).2.mutateAt
          0 0 'h').2.ref_count 0 ≠ 2
    ∧ (((COWHeap.empty.fromCString
        (some ['H', 'e', 'l', 'l', 'o'])).2.copyCtor 0).2.mutateAt
          0 0 'h').2.ref_count 0 = 1 := by
  decide

/-- C1 (amended): a mutating access through a handle of a shared buffer
(ref count at least 2) detaches: the mutated handle moves to a fresh
private buffer with ref count 1 holding the updated characters, while
every untouched sibling still points at the prior buffer, whose ref
count is one less than before the mutation (the number of remaining
handles). -/
theorem cowString_mutate_detach (h : COWHeap) (a i : Nat) (c : Char)
    (d : StringData) (hw : h.wf) (ha : h.lookup a = some d)
    (hrc : 2 ≤ d.ref_count) :
    (h.mutateAt a i c).1 ≠ a
    ∧ (h.mutateAt a i c).2.lookup (h.mutateAt a i c).1
        = some ⟨d.chars.set i c, 1⟩
    ∧ (h.mutateAt a i c).2.ref_count (h.mutateAt a i c).1 = 1
    ∧ (h.mutateAt a i c).2.lookup a = some ⟨d.chars, d.ref_count - 1⟩
    ∧ (h.mutateAt a i c).2.ref_count a = d.ref_count - 1 := by
  have hne : ¬d.ref_count ≤ 1 := by omega
  have ha' : alistLookup h.bufs a = some d := ha
  have han : a < h.next := hw _ (alistLookup_mem _ _ _ ha')
  have hmut : h.mutateAt a i c
      = (h.next, ⟨decRefList h.bufs a ++ [(h.next, ⟨d.chars.set i c, 1⟩)],
          h.next + 1⟩) := by
    simp only [COWHeap.mutateAt, ha]
    rw [if_neg hne]
  have hfresh : ∀ kv ∈ decRefList h.bufs a, kv.1 ≠ h.next := by
    intro kv hkv
    obtain ⟨d0, hd0⟩ := decRefList_key_mem _ _ _ hkv
    have := hw _ hd0
    omega
  have hlooknew : alistLookup
      (decRefList h.bufs a ++ [(h.next, ⟨d.chars.set i c, 1⟩)]) h.next
        = some ⟨d.chars.set i c, 1⟩ :=
    alistLookup_append_fresh _ _ _ hfresh
  have hlookold : alistLookup
      (decRefList h.bufs a ++ [(h.next, ⟨d.chars.set i c, 1⟩)]) a
        = some ⟨d.chars, d.ref_count - 1⟩ :=
    alistLookup_append_left _ _ _ _ (decRefList_lookup_shared _ _ _ ha' hrc)
  rw [hmut]
  refine ⟨by omega, ?_, ?_, ?_, ?_⟩
  · exact hlooknew
  · rw [COWHeap.ref_count]
    show ((alistLookup _ h.next).map StringData.ref_count).getD 0 = 1
    rw [hlooknew]
    rfl
  · exact hlookold
  · rw [COWHeap.ref_count]
    show ((alistLookup _ a).map StringData.ref_count).getD 0
      = d.ref_count - 1
    rw [hlookold]
    rfl

/-- Closed witness for the amended C1 on a concrete two-handle heap. -/
theorem cowString_mutate_detach_witness :
    (((COWHeap.empty.fromCString
        (some ['H', 'e', 'l', 'l', 'o'])).2.copyCtor 0).2.mutateAt
          0 0 'h').1 ≠ 0
    ∧ (((COWHeap.empty.fromCString
        (some ['H', 'e', 'l', 'l', 'o'])).2.copyCtor 0).2.mutateAt
          0 0 'h').2.lookup 0 = some ⟨['H', 'e', 'l', 'l', 'o'], 1⟩ := by
  have t := cowString_mutate_detach
    ((COWHeap.empty.fromCString
        (some ['H', 'e', 'l', 'l', 'o'])).2.copyCtor 0).2
    0 0 'h' ⟨['H', 'e', 'l', 'l', 'o'], 2⟩
    (by unfold COWHeap.wf; decide) (by decide) (by decide)
  exact ⟨t.1, t.2.2.2.1⟩

/-- C4: copy construction shares the source's buffer (same `data_ptr`),
both handles observe the same incremented ref count, no buffer is
allocated and no character bytes are copied; copy assignment from a
distinct handle likewise shares the source's buffer; self-assignment is
a no-op leaving the heap untouched. -/
theorem cowString_copy_semantics (h : COWHeap) (a dst : Nat)
    (d : StringData) (ha : h.lookup a = some d) :
    (h.copyCtor a).1 = a
    ∧ (h.copyCtor a).2.ref_count (h.copyCtor a).1
        = (h.copyCtor a).2.ref_count a
    ∧ (h.copyCtor a).2.ref_count a = d.ref_count + 1
    ∧ (h.copyCtor a).2.next = h.next
    ∧ (∀ j, (h.copyCtor a).2.cStr j = h.cStr j)
    ∧ (dst ≠ a →
        (h.assign dst a).1 = a
        ∧ (h.assign dst a).2.ref_count a = d.ref_count + 1
        ∧ (h.assign dst a).2.next = h.next
        ∧ ∀ j, j ≠ dst → (h.assign dst a).2.cStr j = h.cStr j)
    ∧ h.assign a a = (a, h) := by
  have ha' : alistLookup h.bufs a = some d := ha
  refine ⟨rfl, rfl, ?_, rfl, ?_, ?_, ?_⟩
  · rw [COWHeap.ref_count]
    show ((alistLookup (incRefList h.bufs a) a).map
      StringData.ref_count).getD 0 = d.ref_count + 1
    rw [incRefList, alistLookup_update_eq, ha']
    rfl
  · intro j
    rw [COWHeap.cStr, COWHeap.cStr]
    show ((alistLookup (incRefList h.bufs a) j).map
        StringData.chars).getD []
      = ((alistLookup h.bufs j).map StringData.chars).getD []
    by_cases hj : j = a
    · subst hj
      rw [incRefList, alistLookup_update_eq]
      cases alistLookup h.bufs j <;> rfl
    · rw [incRefList, alistLookup_update_ne _ _ _ _ hj]
  · intro hdst
    rw [COWHeap.assign, if_neg hdst]
    refine ⟨rfl, ?_, rfl, ?_⟩
    · rw [COWHeap.ref_count]
      show ((alistLookup (incRefList (decRefList h.bufs dst) a) a).map
        StringData.ref_count).getD 0 = d.ref_count + 1
      rw [incRefList, alistLookup_update_eq,
        decRefList_lookup_ne _ _ _ (fun hc => hdst hc.symm), ha']
      rfl
    · intro j hjd
      rw [COWHeap.cStr, COWHeap.cStr]
      show ((alistLookup (incRefList (decRefList h.bufs dst) a) j).map
          StringData.chars).getD []
        = ((alistLookup h.bufs j).map StringData.chars).getD []
      by_cases hj : j = a
      · subst hj
        rw [incRefList, alistLookup_update_eq,
          decRefList_lookup_ne _ _ _ hjd, ha']
        rfl
      · rw [incRefList, alistLookup_update_ne _ _ _ _ hj,
          decRefList_lookup_ne _ _ _ hjd]
  · rw [COWHeap.assign, if_pos rfl]

/-- Closed witness for C4 on a concrete one-buffer heap. -/
theorem cowString_copy_semantics_witness :
    ((⟨[(0, ⟨['T', 'e', 's', 't'], 1⟩)], 1⟩ : COWHeap).copyCtor
        0).2.ref_count 0 = 2
    ∧ (⟨[(0, ⟨['T', 'e', 's', 't'], 1⟩)], 1⟩ : COWHeap).assign 0 0
      = (0, ⟨[(0, ⟨['T', 'e', 's', 't'], 1⟩)], 1⟩) := by
  have t := cowString_copy_semantics
    (⟨[(0, ⟨['T', 'e', 's', 't'], 1⟩)], 1⟩ : COWHeap) 0 1
    ⟨['T', 'e', 's', 't'], 1⟩ (by decide)
  exact ⟨t.2.2.1, t.2.2.2.2.2.2⟩

/-- C7: concatenation always allocates a fresh buffer (shared with
neither operand, whatever their ref counts): the result has ref count 1,
its content is the byte-wise concatenation, its length is the sum of the
operand lengths, and both operand buffers are untouched. -/
theorem cowString_concat_fresh (h : COWHeap) (a b : Nat)
    (da db : StringData) (hw : h.wf) (ha : h.lookup a = some da)
    (hb : h.lookup b = some db) :
    (h.concat a b).2.cStr (h.concat a b).1 = da.chars ++ db.chars
    ∧ (h.concat a b).2.strLength (h.concat a b).1
        = da.chars.length + db.chars.length
    ∧ (h.concat a b).2.ref_count (h.concat a b).1 = 1
    ∧ (h.concat a b).1 ≠ a
    ∧ (h.concat a b).1 ≠ b
    ∧ (h.concat a b).2.lookup a = some da
    ∧ (h.concat a b).2.lookup b = some db := by
  have ha' : alistLookup h.bufs a = some da := ha
  have hb' : alistLookup h.bufs b = some db := hb
  have haa : a < h.next := hw _ (alistLookup_mem _ _ _ ha')
  have hbb : b < h.next := hw _ (alistLookup_mem _ _ _ hb')
  have hfresh : ∀ kv ∈ h.bufs, kv.1 ≠ h.next := by
    intro kv hkv
    have := hw _ hkv
    omega
  have hca : h.cStr a = da.chars := by
    rw [COWHeap.cStr, COWHeap.lookup, ha']
    rfl
  have hcb : h.cStr b = db.chars := by
    rw [COWHeap.cStr, COWHeap.lookup, hb']
    rfl
  have hlooknew : alistLookup
      (h.bufs ++ [(h.next, ⟨h.cStr a ++ h.cStr b, 1⟩)]) h.next
        = some ⟨h.cStr a ++ h.cStr b, 1⟩ :=
    alistLookup_append_fresh _ _ _ hfresh
  have hnew : (h.concat a b).2.cStr (h.concat a b).1
      = da.chars ++ db.chars := by
    rw [COWHeap.concat]
    show ((alistLookup (h.bufs ++ [(h.next, ⟨h.cStr a ++ h.cStr b, 1⟩)])
        h.next).map StringData.chars).getD [] = da.chars ++ db.chars
    rw [hlooknew]
    show h.cStr a ++ h.cStr b = da.chars ++ db.chars
    rw [hca, hcb]
  refine ⟨hnew, ?_, ?_, by show h.next ≠ a; omega,
    by show h.next ≠ b; omega, ?_, ?_⟩
  · rw [COWHeap.strLength, hnew, List.length_append]
  · rw [COWHeap.ref_count]
    show ((alistLookup (h.bufs ++ [(h.next, ⟨h.cStr a ++ h.cStr b, 1⟩)])
      h.next).map StringData.ref_count).getD 0 = 1
    rw [hlooknew]
    rfl
  · exact alistLookup_append_left _ _ _ _ ha'
  · exact alistLookup_append_left _ _ _ _ hb'

/-- Closed witness for C7 on a concrete two-buffer heap. -/
theorem cowString_concat_fresh_witness :
    ((⟨[(0, ⟨['H', 'i'], 3⟩), (1, ⟨['y', 'o'], 1⟩)], 2⟩ :
        COWHeap).concat 0 1).2.cStr
      ((⟨[(0, ⟨['H', 'i'], 3⟩), (1, ⟨['y', 'o'], 1⟩)], 2⟩ :
        COWHeap).concat 0 1).1 = ['H', 'i', 'y', 'o']
    ∧ ((⟨[(0, ⟨['H', 'i'], 3⟩), (1, ⟨['y', 'o'], 1⟩)], 2⟩ :
        COWHeap).concat 0 1).1 ≠ 0 := by
  have t := cowString_concat_fresh
    (⟨[(0, ⟨['H', 'i'], 3⟩), (1, ⟨['y', 'o'], 1⟩)], 2⟩ : COWHeap) 0 1
    ⟨['H', 'i'], 3⟩ ⟨['y', 'o'], 1⟩
    (by unfold COWHeap.wf; decide) (by decide) (by decide)
  exact ⟨t.1, t.2.2.2.1⟩

/-! ## SmartVector deep-copy theorems -/

/-- C8: a copy of a vector holds element-wise equal contents, owns a
buffer distinct from the source's, and a subsequent element write
through either vector leaves the other vector's buffer (hence its every
element) unchanged. -/
theorem smartVector_deep_copy (H : VecHeap) (a : Nat) (xs : List Int)
    (hw : H.wf) (ha : H.lookup a = some xs) :
    (H.copyCtor a).1 ≠ a
    ∧ (H.copyCtor a).2.lookup (H.copyCtor a).1 = some xs
    ∧ (H.copyCtor a).2.lookup a = some xs
    ∧ (∀ i, (H.copyCtor a).2.read (H.copyCtor a).1 i
        = (H.copyCtor a).2.read a i)
    ∧ (∀ j x, ((H.copyCtor a).2.setIdx (H.copyCtor a).1 j x).lookup a
        = some xs)
    ∧ (∀ j x, ((H.copyCtor a).2.setIdx a j x).lookup (H.copyCtor a).1
        = some xs) := by
  have ha' : alistLookup H.bufs a = some xs := ha
  have haa : a < H.next := hw _ (alistLookup_mem _ _ _ ha')
  have hfresh : ∀ kv ∈ H.bufs, kv.1 ≠ H.next := by
    intro kv hkv
    have := hw _ hkv
    omega
  have hcopy : H.copyCtor a = (H.next, ⟨H.bufs ++ [(H.next, xs)], H.next + 1⟩) := by
    rw [VecHeap.copyCtor, VecHeap.lookup, ha']
    rfl
  rw [hcopy]
  have hlnew : alistLookup (H.bufs ++ [(H.next, xs)]) H.next = some xs :=
    alistLookup_append_fresh _ _ _ hfresh
  have hlold : alistLookup (H.bufs ++ [(H.next, xs)]) a = some xs :=
    alistLookup_append_left _ _ _ _ ha'
  refine ⟨by show H.next ≠ a; omega, hlnew, hlold, ?_, ?_, ?_⟩
  · intro i
    rw [VecHeap.read, VecHeap.read, VecHeap.lookup, VecHeap.lookup]
    show ((alistLookup (H.bufs ++ [(H.next, xs)]) H.next).getD []).getD i 0
      = ((alistLookup (H.bufs ++ [(H.next, xs)]) a).getD []).getD i 0
    rw [hlnew, hlold]
  · intro j x
    rw [VecHeap.setIdx, VecHeap.lookup]
    show alistLookup (alistUpdate (fun xs => xs.set j x)
      (H.bufs ++ [(H.next, xs)]) H.next) a = some xs
    rw [alistLookup_update_ne _ _ _ _ (by omega)]
    exact hlold
  · intro j x
    rw [VecHeap.setIdx, VecHeap.lookup]
    show alistLookup (alistUpdate (fun xs => xs.set j x)
      (H.bufs ++ [(H.next, xs)]) a) H.next = some xs
    rw [alistLookup_update_ne _ _ _ _ (by omega)]
    exact hlnew

/-- Closed witness for C8 on a concrete one-buffer heap. -/
theorem smartVector_deep_copy_witness :
    ((⟨[(0, [1, 2, 3])], 1⟩ : VecHeap).copyCtor 0).1 ≠ 0
    ∧ (((⟨[(0, [1, 2, 3])], 1⟩ : VecHeap).copyCtor 0).2.setIdx
        ((⟨[(0, [1, 2, 3])], 1⟩ : VecHeap).copyCtor 0).1 0 9).lookup 0
      = some [1, 2, 3] := by
  have t := smartVector_deep_copy (⟨[(0, [1, 2, 3])], 1⟩ : VecHeap) 0
    [1, 2, 3] (by unfold VecHeap.wf; decide) (by decide)
  exact ⟨t.1, t.2.2.2.2.1 0 9⟩

/-! ## Memory manager: arithmetic and first-fit lemmas -/

theorem alignUp8_ge (n : Nat) : n ≤ alignUp8 n := by
  rw [alignUp8]
  omega

theorem alignUp8_mod (n : Nat) : alignUp8 n % 8 = 0 := by
  rw [alignUp8]
  exact Nat.mul_mod_left _ _

theorem alignUp8_pos (n : Nat) (h : 0 < n) : 0 < alignUp8 n := by
  rw [alignUp8]
  omega

theorem isTiling_le (l : List Seg) (lo hi : Nat) (h : isTiling l lo hi) :
    lo ≤ hi := by
  induction l generalizing lo with
  | nil => exact Nat.le_of_eq h
  | cons s rest ih =>
    obtain ⟨h1, h2, h3⟩ := h
    exact Nat.le_trans (by omega) (ih _ h3)

theorem isTiling_mem_len (l : List Seg) (lo hi : Nat) (s : Seg)
    (h : isTiling l lo hi) (hs : s ∈ l) : s.len + lo ≤ hi := by
  induction l generalizing lo with
  | nil => simp at hs
  | cons t rest ih =>
    obtain ⟨hoff, hlen, hrest⟩ := h
    rcases List.mem_cons.mp hs with h1 | h2
    · subst h1
      have := isTiling_le _ _ _ hrest
      omega
    · have := ih _ hrest h2
      omega

theorem firstFitSplit_tiling (a : Nat) (l : List Seg) (lo hi : Nat)
    (l' : List Seg) (p : Nat) (ha : 0 < a)
    (h : firstFitSplit a l = some (l', p)) (ht : isTiling l lo hi) :
    isTiling l' lo hi := by
  induction l generalizing lo l' p with
  | nil => simp [firstFitSplit] at h
  | cons s rest ih =>
    obtain ⟨hoff, hlen, hrest⟩ := ht
    rw [firstFitSplit] at h
    by_cases hc : s.free = true ∧ a ≤ s.len
    · rw [if_pos hc] at h
      rw [Option.some.injEq, Prod.mk.injEq] at h
      obtain ⟨rfl, rfl⟩ := h
      by_cases hsplit : a < s.len
      · rw [if_pos hsplit]
        refine ⟨hoff, ha, ?_, ?_, ?_⟩
        · show s.off + a = lo + a
          omega
        · show 0 < s.len - a
          omega
        · show isTiling rest (lo + a + (s.len - a)) hi
          have he : lo + a + (s.len - a) = lo + s.len := by omega
          rw [he]
          exact hrest
      · rw [if_neg hsplit]
        refine ⟨hoff, ha, ?_⟩
        have he : lo + a = lo + s.len := by omega
        rw [he]
        exact hrest
    · rw [if_neg hc] at h
      cases hr : firstFitSplit a rest with
      | none => rw [hr] at h; simp at h
      | some pr =>
        obtain ⟨rest', p'⟩ := pr
        rw [hr] at h
        simp only [Option.some.injEq, Prod.mk.injEq] at h
        obtain ⟨rfl, rfl⟩ := h
        exact ⟨hoff, hlen, ih _ _ _ hr hrest⟩

theorem firstFitSplit_noAdj (a : Nat) (l : List Seg) (l' : List Seg)
    (p : Nat) (h : firstFitSplit a l = some (l', p))
    (hn : noAdjFree l) : noAdjFree l' := by
  induction l generalizing l' p with
  | nil => simp [firstFitSplit] at h
  | cons s rest ih =>
    rw [firstFitSplit] at h
    by_cases hc : s.free = true ∧ a ≤ s.len
    · rw [if_pos hc] at h
      rw [Option.some.injEq, Prod.mk.injEq] at h
      obtain ⟨rfl, rfl⟩ := h
      by_cases hsplit : a < s.len
      · rw [if_pos hsplit]
        refine ⟨by simp, ?_⟩
        cases rest with
        | nil => trivial
        | cons t rr =>
          refine ⟨?_, hn.2⟩
          intro hcon
          exact absurd ⟨hc.1, hcon.2⟩ hn.1
      · rw [if_neg hsplit]
        cases rest with
        | nil => trivial
        | cons t rr => exact ⟨by simp, hn.2⟩
    · rw [if_neg hc] at h
      cases hr : firstFitSplit a rest with
      | none => rw [hr] at h; simp at h
      | some pr =>
        obtain ⟨rest', p'⟩ := pr
        rw [hr] at h
        simp only [Option.some.injEq, Prod.mk.injEq] at h
        obtain ⟨rfl, rfl⟩ := h
        cases rest with
        | nil => simp [firstFitSplit] at hr
        | cons t rr =>
          have hnt : noAdjFree (t :: rr) := hn.2
          have hrec : noAdjFree rest' := ih _ _ hr hnt
          rw [firstFitSplit] at hr
          by_cases hct : t.free = true ∧ a ≤ t.len
          · rw [if_pos hct] at hr
            rw [Option.some.injEq, Prod.mk.injEq] at hr
            obtain ⟨hrl, _⟩ := hr
            rw [← hrl] at hrec ⊢
            exact ⟨by simp, hrec⟩
          · rw [if_neg hct] at hr
            cases hr2 : firstFitSplit a rr with
            | none => rw [hr2] at hr; simp at hr
            | some pr2 =>
              obtain ⟨rr', p2⟩ := pr2
              rw [hr2] at hr
              simp only [Option.some.injEq, Prod.mk.injEq] at hr
              obtain ⟨hrl, _⟩ := hr
              rw [← hrl] at hrec ⊢
              exact ⟨hn.1, hrec⟩

theorem firstFitSplit_aligned (a : Nat) (l : List Seg) (l' : List Seg)
    (p : Nat) (ha : a % 8 = 0) (h : firstFitSplit a l = some (l', p))
    (hal : offsAligned l) : offsAligned l' := by
  induction l generalizing l' p with
  | nil => simp [firstFitSplit] at h
  | cons s rest ih =>
    have hs8 : s.off % 8 = 0 := hal s (List.mem_cons_self _ _)
    have hrest : offsAligned rest :=
      fun t ht => hal t (List.mem_cons_of_mem _ ht)
    rw [firstFitSplit] at h
    by_cases hc : s.free = true ∧ a ≤ s.len
    · rw [if_pos hc] at h
      rw [Option.some.injEq, Prod.mk.injEq] at h
      obtain ⟨rfl, rfl⟩ := h
      by_cases hsplit : a < s.len
      · rw [if_pos hsplit]
        intro t ht
        rcases List.mem_cons.mp ht with h1 | h2
        · rw [h1]; exact hs8
        · rcases List.mem_cons.mp h2 with h3 | h4
          · rw [h3]
            show (s.off + a) % 8 = 0
            omega
          · exact hrest t h4
      · rw [if_neg hsplit]
        intro t ht
        rcases List.mem_cons.mp ht with h1 | h2
        · rw [h1]; exact hs8
        · exact hrest t h2
    · rw [if_neg hc] at h
      cases hr : firstFitSplit a rest with
      | none => rw [hr] at h; simp at h
      | some pr =>
        obtain ⟨rest', p'⟩ := pr
        rw [hr] at h
        simp only [Option.some.injEq, Prod.mk.injEq] at h
        obtain ⟨rfl, rfl⟩ := h
        intro t ht
        rcases List.mem_cons.mp ht with h1 | h2
        · rw [h1]; exact hs8
        · exact ih _ _ hr hrest t h2

theorem firstFitSplit_ptr (a : Nat) (l : List Seg) (l' : List Seg)
    (p : Nat) (h : firstFitSplit a l = some (l', p)) :
    ∃ s ∈ l, s.off = p ∧ s.free = true := by
  induction l generalizing l' p with
  | nil => simp [firstFitSplit] at h
  | cons s rest ih =>
    rw [firstFitSplit] at h
    by_cases hc : s.free = true ∧ a ≤ s.len
    · rw [if_pos hc] at h
      rw [Option.some.injEq, Prod.mk.injEq] at h
      exact ⟨s, List.mem_cons_self _ _, h.2, hc.1⟩
    · rw [if_neg hc] at h
      cases hr : firstFitSplit a rest with
      | none => rw [hr] at h; simp at h
      | some pr =>
        obtain ⟨rest', p'⟩ := pr
        rw [hr] at h
        simp only [Option.some.injEq, Prod.mk.injEq] at h
        obtain ⟨rfl, rfl⟩ := h
        obtain ⟨t, htm, hto, htf⟩ := ih _ _ hr
        exact ⟨t, List.mem_cons_of_mem _ htm, hto, htf⟩

theorem firstFitSplit_fail (a : Nat) (l : List Seg)
    (h : ∀ b ∈ l, b.free = true → b.len < a) :
    firstFitSplit a l = none := by
  induction l with
  | nil => rfl
  | cons s rest ih =>
    rw [firstFitSplit]
    have hc : ¬(s.free = true ∧ a ≤ s.len) := by
      intro hcon
      have := h s (List.mem_cons_self _ _) hcon.1
      omega
    rw [if_neg hc, ih (fun b hb => h b (List.mem_cons_of_mem _ hb))]

/-! ## Memory manager: markFree and coalesce lemmas -/

theorem markFree_tiling (p : Nat) (l : List Seg) (lo hi : Nat)
    (l' : List Seg) (n : Nat) (h : markFree p l = some (l', n))
    (ht : isTiling l lo hi) : isTiling l' lo hi := by
  induction l generalizing lo l' n with
  | nil => simp [markFree] at h
  | cons s rest ih =>
    obtain ⟨hoff, hlen, hrest⟩ := ht
    rw [markFree] at h
    by_cases hc : s.off = p ∧ s.free = false
    · rw [if_pos hc] at h
      rw [Option.some.injEq, Prod.mk.injEq] at h
      obtain ⟨rfl, rfl⟩ := h
      exact ⟨hoff, hlen, hrest⟩
    · rw [if_neg hc] at h
      cases hr : markFree p rest with
      | none => rw [hr] at h; simp at h
      | some pr =>
        obtain ⟨rest', n'⟩ := pr
        rw [hr] at h
        simp only [Option.some.injEq, Prod.mk.injEq] at h
        obtain ⟨rfl, rfl⟩ := h
        exact ⟨hoff, hlen, ih _ _ _ hr hrest⟩

theorem markFree_aligned (p : Nat) (l : List Seg) (l' : List Seg)
    (n : Nat) (h : markFree p l = some (l', n)) (hal : offsAligned l) :
    offsAligned l' := by
  induction l generalizing l' n with
  | nil => simp [markFree] at h
  | cons s rest ih =>
    have hs8 : s.off % 8 = 0 := hal s (List.mem_cons_self _ _)
    have hrest : offsAligned rest :=
      fun t ht => hal t (List.mem_cons_of_mem _ ht)
    rw [markFree] at h
    by_cases hc : s.off = p ∧ s.free = false
    · rw [if_pos hc] at h
      rw [Option.some.injEq, Prod.mk.injEq] at h
      obtain ⟨rfl, rfl⟩ := h
      intro t ht
      rcases List.mem_cons.mp ht with h1 | h2
      · rw [h1]; exact hs8
      · exact hrest t h2
    · rw [if_neg hc] at h
      cases hr : markFree p rest with
      | none => rw [hr] at h; simp at h
      | some pr =>
        obtain ⟨rest', n'⟩ := pr
        rw [hr] at h
        simp only [Option.some.injEq, Prod.mk.injEq] at h
        obtain ⟨rfl, rfl⟩ := h
        intro t ht
        rcases List.mem_cons.mp ht with h1 | h2
        · rw [h1]; exact hs8
        · exact ih _ _ hr hrest t h2

theorem coalesce_tiling (l : List Seg) (lo hi : Nat)
    (ht : isTiling l lo hi) : isTiling (coalesce l) lo hi := by
  induction l generalizing lo with
  | nil => exact ht
  | cons s rest ih =>
    obtain ⟨hoff, hlen, hrest⟩ := ht
    have hco := ih _ hrest
    rw [coalesce]
    cases hc : coalesce rest with
    | nil =>
      rw [hc] at hco
      have : lo + s.len = hi := hco
      exact ⟨hoff, hlen, this⟩
    | cons t ts =>
      rw [hc] at hco
      obtain ⟨ht1, ht2, ht3⟩ := hco
      dsimp only
      by_cases hm : s.free = true ∧ t.free = true ∧ s.off + s.len = t.off
      · rw [if_pos hm]
        refine ⟨hoff, by show 0 < s.len + t.len; omega, ?_⟩
        show isTiling ts (lo + (s.len + t.len)) hi
        have he : lo + (s.len + t.len) = lo + s.len + t.len := by omega
        rw [he]
        exact ht3
      · rw [if_neg hm]
        exact ⟨hoff, hlen, ht1, ht2, ht3⟩

theorem coalesce_noAdj (l : List Seg) (lo hi : Nat)
    (ht : isTiling l lo hi) : noAdjFree (coalesce l) := by
  induction l generalizing lo with
  | nil => trivial
  | cons s rest ih =>
    obtain ⟨hoff, hlen, hrest⟩ := ht
    have hco := coalesce_tiling _ _ _ hrest
    have hna := ih _ hrest
    rw [coalesce]
    cases hc : coalesce rest with
    | nil => trivial
    | cons t ts =>
      rw [hc] at hco hna
      obtain ⟨ht1, ht2, ht3⟩ := hco
      dsimp only
      by_cases hm : s.free = true ∧ t.free = true ∧ s.off + s.len = t.off
      · rw [if_pos hm]
        cases ts with
        | nil => trivial
        | cons u uu =>
          refine ⟨?_, hna.2⟩
          intro hcon
          exact absurd ⟨hm.2.1, hcon.2⟩ hna.1
      · rw [if_neg hm]
        refine ⟨?_, hna⟩
        intro hcon
        apply hm
        refine ⟨hcon.1, hcon.2, ?_⟩
        omega

theorem coalesce_aligned (l : List Seg) (hal : offsAligned l) :
    offsAligned (coalesce l) := by
  induction l with
  | nil => exact hal
  | cons s rest ih =>
    have hs8 : s.off % 8 = 0 := hal s (List.mem_cons_self _ _)
    have hrest : offsAligned rest :=
      fun t ht => hal t (List.mem_cons_of_mem _ ht)
    have hco := ih hrest
    rw [coalesce]
    cases hc : coalesce rest with
    | nil =>
      intro t ht
      rcases List.mem_cons.mp ht with h1 | h2
      · rw [h1]; exact hs8
      · simp at h2
    | cons t ts =>
      rw [hc] at hco
      dsimp only
      by_cases hm : s.free = true ∧ t.free = true ∧ s.off + s.len = t.off
      · rw [if_pos hm]
        intro u hu
        rcases List.mem_cons.mp hu with h1 | h2
        · rw [h1]; exact hs8
        · exact hco u (List.mem_cons_of_mem _ h2)
      · rw [if_neg hm]
        intro u hu
        rcases List.mem_cons.mp hu with h1 | h2
        · rw [h1]; exact hs8
        · exact hco u h2

theorem tiling_allFree_singleton (l : List Seg) (P : Nat)
    (ht : isTiling l 0 P) (hn : noAdjFree l)
    (hf : ∀ s ∈ l, s.free = true) (hP : 0 < P) :
    l = [⟨0, P, true⟩] := by
  cases l with
  | nil =>
    have : (0 : Nat) = P := ht
    omega
  | cons s rest =>
    cases rest with
    | nil =>
      obtain ⟨hoff, hlen, hrest⟩ := ht
      have hend : 0 + s.len = P := hrest
      have hfree : s.free = true := hf s (List.mem_cons_self _ _)
      obtain ⟨o, ln, f⟩ := s
      simp only [List.cons.injEq, and_true]
      have ho : o = 0 := hoff
      have hfr : f = true := hfree
      have hl : ln = P := by
        have : 0 + ln = P := hend
        omega
      rw [ho, hl, hfr]
    | cons t rr =>
      exact absurd ⟨hf s (List.mem_cons_self _ _),
        hf t (List.mem_cons_of_mem _ (List.mem_cons_self _ _))⟩ hn.1

/-! ## Memory manager: invariant preservation and replay facts -/

theorem memoryManager_init_inv (P : Nat) :
    (SimpleMemoryManager.init P).Inv := by
  rw [SimpleMemoryManager.init, SimpleMemoryManager.Inv]
  by_cases hP : P = 0
  · rw [if_pos hP]
    refine ⟨hP.symm, trivial, ?_⟩
    intro s hs
    simp at hs
  · rw [if_neg hP]
    refine ⟨⟨rfl, ?_, ?_⟩, trivial, ?_⟩
    · show 0 < P
      omega
    · show 0 + P = P
      omega
    · intro s hs
      rcases List.mem_cons.mp hs with h1 | h2
      · rw [h1]
        show (0 : Nat) % 8 = 0
        rfl
      · simp at h2

theorem memoryManager_allocate_inv (m : SimpleMemoryManager) (s : Nat)
    (h : m.Inv) : ((m.allocate s).2).Inv := by
  rw [SimpleMemoryManager.allocate]
  by_cases h0 : s = 0
  · rw [if_pos h0]
    exact h
  · rw [if_neg h0]
    cases hr : firstFitSplit (alignUp8 s) m.segs with
    | none => exact h
    | some pr =>
      obtain ⟨segs', p⟩ := pr
      obtain ⟨ht, hn, hal⟩ := h
      have ha8 : 0 < alignUp8 s := alignUp8_pos s (by omega)
      exact ⟨firstFitSplit_tiling _ _ _ _ _ _ ha8 hr ht,
        firstFitSplit_noAdj _ _ _ _ hr hn,
        firstFitSplit_aligned _ _ _ _ (alignUp8_mod s) hr hal⟩

theorem memoryManager_deallocate_inv (m : SimpleMemoryManager)
    (p : Option Nat) (h : m.Inv) : (m.deallocate p).Inv := by
  cases p with
  | none => exact h
  | some off =>
    rw [SimpleMemoryManager.deallocate.eq_def]
    dsimp only
    cases hr : markFree off m.segs with
    | none => exact h
    | some pr =>
      obtain ⟨segs', n⟩ := pr
      obtain ⟨ht, hn, hal⟩ := h
      have ht' := markFree_tiling _ _ _ _ _ _ hr ht
      have hal' := markFree_aligned _ _ _ _ hr hal
      exact ⟨coalesce_tiling _ _ _ ht', coalesce_noAdj _ _ _ ht',
        coalesce_aligned _ hal'⟩

theorem memoryManager_allocate_pool (m : SimpleMemoryManager) (s : Nat) :
    ((m.allocate s).2).pool_size = m.pool_size := by
  rw [SimpleMemoryManager.allocate]
  by_cases h0 : s = 0
  · rw [if_pos h0]
  · rw [if_neg h0]
    cases hr : firstFitSplit (alignUp8 s) m.segs with
    | none => rfl
    | some pr =>
      obtain ⟨segs', p⟩ := pr
      rfl

theorem memoryManager_deallocate_pool (m : SimpleMemoryManager)
    (p : Option Nat) : (m.deallocate p).pool_size = m.pool_size := by
  cases p with
  | none => rfl
  | some off =>
    rw [SimpleMemoryManager.deallocate.eq_def]
    dsimp only
    cases hr : markFree off m.segs with
    | none => rfl
    | some pr =>
      obtain ⟨segs', n⟩ := pr
      rfl

theorem memoryManager_step_inv (m : SimpleMemoryManager) (op : MMOp)
    (h : m.Inv) : (m.step op).Inv := by
  cases op with
  | alloc s => exact memoryManager_allocate_inv m s h
  | dealloc p => exact memoryManager_deallocate_inv m p h

theorem memoryManager_step_pool (m : SimpleMemoryManager) (op : MMOp) :
    (m.step op).pool_size = m.pool_size := by
  cases op with
  | alloc s => exact memoryManager_allocate_pool m s
  | dealloc p => exact memoryManager_deallocate_pool m p

theorem memoryManager_foldl_inv (ops : List MMOp)
    (m : SimpleMemoryManager) (h : m.Inv) :
    (ops.foldl SimpleMemoryManager.step m).Inv := by
  induction ops generalizing m with
  | nil => exact h
  | cons op ops ih => exact ih _ (memoryManager_step_inv m op h)

theorem memoryManager_foldl_pool (ops : List MMOp)
    (m : SimpleMemoryManager) :
    (ops.foldl SimpleMemoryManager.step m).pool_size = m.pool_size := by
  induction ops generalizing m with
  | nil => rfl
  | cons op ops ih =>
    rw [List.foldl_cons, ih, memoryManager_step_pool]

theorem memoryManager_replay_inv (P : Nat) (ops : List MMOp) :
    (SimpleMemoryManager.replay P ops).Inv :=
  memoryManager_foldl_inv ops _ (memoryManager_init_inv P)

theorem memoryManager_replay_pool (P : Nat) (ops : List MMOp) :
    (SimpleMemoryManager.replay P ops).pool_size = P :=
  memoryManager_foldl_pool ops _

/-! ## Memory manager claim theorems -/

/-- C3: after any call sequence on a pool of `P > 0` bytes that ends
with no outstanding allocation (every segment free), the free list is
fully coalesced back to a single block spanning the arena:
`get_free_block_count() = 1` and `get_largest_free_block() = P`. -/
theorem memoryManager_full_coalescence (P : Nat) (ops : List MMOp)
    (hP : 0 < P)
    (hout : ∀ s ∈ (SimpleMemoryManager.replay P ops).segs,
      s.free = true) :
    (SimpleMemoryManager.replay P ops).get_free_block_count = 1
    ∧ (SimpleMemoryManager.replay P ops).get_largest_free_block = P := by
  obtain ⟨ht, hn, _⟩ := memoryManager_replay_inv P ops
  rw [memoryManager_replay_pool P ops] at ht
  have hsing := tiling_allFree_singleton _ _ ht hn hout hP
  rw [SimpleMemoryManager.get_free_block_count,
    SimpleMemoryManager.get_largest_free_block, hsing]
  constructor
  · rfl
  · show max P 0 = P
    omega

/-- Closed witness for C3: allocate 100 bytes and free them again. -/
theorem memoryManager_full_coalescence_witness :
    (SimpleMemoryManager.replay 1024
        [MMOp.alloc 100, MMOp.dealloc (some 0)]).get_free_block_count = 1
    ∧ (SimpleMemoryManager.replay 1024
        [MMOp.alloc 100, MMOp.dealloc (some 0)]).get_largest_free_block
      = 1024 :=
  memoryManager_full_coalescence 1024
    [MMOp.alloc 100, MMOp.dealloc (some 0)] (by decide) (by decide)

/-- C5: an allocation request exceeding the pool size (or exceeding
every free block) fails: it returns the null pointer and leaves the
manager — in particular `get_allocated_bytes`, `get_allocation_count`
and `get_deallocation_count` — unchanged. -/
theorem memoryManager_allocate_fail (P s : Nat) (ops : List MMOp)
    (h : (SimpleMemoryManager.replay P ops).pool_size < s
      ∨ ∀ b ∈ (SimpleMemoryManager.replay P ops).segs,
          b.free = true → b.len < s) :
    (SimpleMemoryManager.replay P ops).allocate s
        = (none, SimpleMemoryManager.replay P ops)
    ∧ ((SimpleMemoryManager.replay P ops).allocate s).2.get_allocated_bytes
        = (SimpleMemoryManager.replay P ops).get_allocated_bytes
    ∧ ((SimpleMemoryManager.replay P ops).allocate s).2.get_allocation_count
        = (SimpleMemoryManager.replay P ops).get_allocation_count
    ∧ ((SimpleMemoryManager.replay P ops).allocate
        s).2.get_deallocation_count
      = (SimpleMemoryManager.replay P ops).get_deallocation_count := by
  have hmain : (SimpleMemoryManager.replay P ops).allocate s
      = (none, SimpleMemoryManager.replay P ops) := by
    rw [SimpleMemoryManager.allocate]
    by_cases h0 : s = 0
    · rw [if_pos h0]
    · rw [if_neg h0]
      have hfail : ∀ b ∈ (SimpleMemoryManager.replay P ops).segs,
          b.free = true → b.len < alignUp8 s := by
        intro b hb hbf
        have hs8 := alignUp8_ge s
        rcases h with h1 | h2
        · obtain ⟨ht, _, _⟩ := memoryManager_replay_inv P ops
          have := isTiling_mem_len _ _ _ _ ht hb
          omega
        · have := h2 b hb hbf
          omega
      rw [firstFitSplit_fail _ _ hfail]
  exact ⟨hmain, by rw [hmain], by rw [hmain], by rw [hmain]⟩

/-- Closed witness for C5: a 2048-byte request on a 1024-byte pool. -/
theorem memoryManager_allocate_fail_witness :
    (SimpleMemoryManager.replay 1024 ([] : List MMOp)).allocate 2048
      = (none, SimpleMemoryManager.replay 1024 ([] : List MMOp)) :=
  (memoryManager_allocate_fail 1024 2048 [] (Or.inl (by decide))).1

/-- C9: deallocating the null pointer is a no-op: the manager — its
segment list (hence the free list) and all its counters, in particular
`get_deallocation_count` — is left exactly unchanged. -/
theorem memoryManager_deallocate_null (m : SimpleMemoryManager) :
    m.deallocate none = m
    ∧ (m.deallocate none).segs = m.segs
    ∧ (m.deallocate none).get_deallocation_count
        = m.get_deallocation_count
    ∧ (m.deallocate none).get_allocation_count = m.get_allocation_count
    ∧ (m.deallocate none).get_allocated_bytes = m.get_allocated_bytes :=
  ⟨rfl, rfl, rfl, rfl, rfl⟩

/-- C10: every pointer returned by a successful `allocate` call on a
reachable manager is aligned to `sizeof(void*) = 8`: its offset from
the arena base is a multiple of 8 (the arena base itself being
`sizeof(void*)`-aligned, so is the returned address).  The spec is
silent on alignment; the shipped test contract requires it, and the
model rounds request sizes up to multiples of 8 accordingly. -/
theorem memoryManager_allocate_aligned (P s p : Nat) (ops : List MMOp)
    (h : ((SimpleMemoryManager.replay P ops).allocate s).1 = some p) :
    p % 8 = 0 := by
  obtain ⟨_, _, hal⟩ := memoryManager_replay_inv P ops
  rw [SimpleMemoryManager.allocate] at h
  by_cases h0 : s = 0
  · rw [if_pos h0] at h
    simp at h
  · rw [if_neg h0] at h
    cases hr : firstFitSplit (alignUp8 s)
        (SimpleMemoryManager.replay P ops).segs with
    | none =>
      rw [hr] at h
      simp at h
    | some pr =>
      obtain ⟨segs', p'⟩ := pr
      rw [hr] at h
      simp only [Option.some.injEq] at h
      obtain ⟨sf, hsm, hsoff, _⟩ := firstFitSplit_ptr _ _ _ _ hr
      have := hal sf hsm
      omega

/-- Closed witness for C10: a 1-byte allocation on a fresh pool returns
offset 0, a multiple of 8. -/
theorem memoryManager_allocate_aligned_witness :
    ((SimpleMemoryManager.replay 1024 ([] : List MMOp)).allocate 1).1
      = some 0
    ∧ 0 % 8 = 0 :=
  ⟨by decide, memoryManager_allocate_aligned 1024 1 0 [] (by decide)⟩

end CppMastery
